import Mathlib

/-!
Shallow embedding of the analytics core of `src/app.py` (a Streamlit fund
net-value trend viewer), together with proofs of the specification claims.

Python floats are modelled as exact rationals (`ℚ`), Python `date` values as a
year/month/day record ordered lexicographically, Python lists as `List`, and
Python dicts (insertion ordered) as association lists whose insertion operation
overwrites in place.  Fallible paths return `Option`/sentinel values exactly as
the source does.
-/

namespace StockScreener

/-! ## Dates (model of Python `datetime.date`) -/

/-- A calendar date, mirroring Python's `date(year, month, day)`. -/
structure Date where
  year : ℤ
  month : ℤ
  day : ℤ
deriving DecidableEq

/-- Lexicographic order on dates, mirroring Python `date` comparison. -/
def Date.le (a b : Date) : Prop :=
  a.year < b.year ∨ (a.year = b.year ∧ (a.month < b.month ∨ (a.month = b.month ∧ a.day ≤ b.day)))

instance (a b : Date) : Decidable (Date.le a b) := by
  unfold Date.le; infer_instance

/-- Gregorian leap-year rule (as used by Python's `datetime`). -/
def isLeap (y : ℤ) : Bool :=
  (y % 4 == 0 && y % 100 != 0) || (y % 400 == 0)

/-- Number of days in a month of a given year. -/
def daysInMonth (y m : ℤ) : ℤ :=
  if m = 2 then (if isLeap y then 29 else 28)
  else if m = 4 ∨ m = 6 ∨ m = 9 ∨ m = 11 then 30
  else 31

/-- The calendar day immediately before `t`. -/
def prevDay (t : Date) : Date :=
  if 1 < t.day then ⟨t.year, t.month, t.day - 1⟩
  else if 1 < t.month then ⟨t.year, t.month - 1, daysInMonth t.year (t.month - 1)⟩
  else ⟨t.year - 1, 12, 31⟩

/-- `t - timedelta(days = n)`: subtract `n` calendar days. -/
def subDays (t : Date) : ℕ → Date
  | 0 => t
  | n + 1 => subDays (prevDay t) n

/-- `ytd_start` from the source: January 1 of the year of the given "today". -/
def ytd_start (today : Date) : Date :=
  ⟨today.year, 1, 1⟩

/-! ## Range selection (`RANGE_ITEMS` / `in_range`) -/

/-- One entry of `RANGE_ITEMS`: a selector key and its day-count (absent for
`ytd`/`all`).  Display labels are irrelevant to the analytics and omitted. -/
structure RangeItem where
  key : String
  days : Option ℕ
deriving DecidableEq

/-- The `RANGE_ITEMS` table from the source (`365*3 = 1095`, `365*5 = 1825`). -/
def RANGE_ITEMS : List RangeItem :=
  [⟨"1m", some 31⟩, ⟨"3m", some 93⟩, ⟨"6m", some 186⟩, ⟨"1y", some 365⟩,
   ⟨"3y", some 1095⟩, ⟨"5y", some 1825⟩, ⟨"ytd", none⟩, ⟨"all", none⟩]

/-- `in_range(d, key)` from the source, with the implicit `date.today()`
made an explicit parameter.  The `some 0` branch mirrors Python's
falsy test `not conf["days"]`. -/
def in_range (d : Date) (key : String) (today : Date) : Bool :=
  if key = "all" then true
  else if key = "ytd" then decide (Date.le (ytd_start today) d)
  else
    match RANGE_ITEMS.find? (fun x => x.key == key) with
    | none => true
    | some conf =>
      match conf.days with
      | none => true
      | some 0 => true
      | some ds => decide (Date.le (subDays today ds) d)

/-- The day-count associated with a selector key in `RANGE_ITEMS`, if any. -/
def rangeDays (key : String) : Option ℕ :=
  (RANGE_ITEMS.find? (fun x => x.key == key)).bind (fun x => x.days)

/-! ## Moving average (`moving_average`) -/

/-- The loop body state of `moving_average`: the queue `q`, the running sum
`q_sum`, processed via structural recursion over the remaining input. -/
def movingAverageGo (win : ℕ) (q : List ℚ) (qsum : ℚ) :
    List (ℤ × ℚ) → List (ℤ × Option ℚ)
  | [] => []
  | (ts, v) :: rest =>
    let q1 := q ++ [v]
    let s1 := qsum + v
    let q2 := if win < q1.length then q1.tail else q1
    let s2 := if win < q1.length then s1 - q1.headD 0 else s1
    (ts, if q2.length < win then none else some (s2 / (q2.length : ℚ))) ::
      movingAverageGo win q2 s2 rest

/-- `moving_average(series, win)` from the source: simple moving average with a
single incrementally updated running sum. -/
def moving_average (series : List (ℤ × ℚ)) (win : ℕ) : List (ℤ × Option ℚ) :=
  movingAverageGo win [] 0 series

/-! ## Extreme gain / drawdown analysis (`calc_extremes`) -/

/-- One filtered observation row (`dict(ts=…, date=…, unit=…, acc=…)` in the
source); the display date string is represented by the `Date` itself. -/
structure Row where
  ts : ℤ
  d : Date
  unit : ℚ
  acc : Option ℚ
deriving DecidableEq

/-- The result record of `calc_extremes` (percentages and span indices). -/
structure Extremes where
  upPct : ℚ
  upFrom : ℕ
  upTo : ℕ
  downPct : ℚ
  downFrom : ℕ
  downTo : ℕ
deriving DecidableEq

/-- Loop state of the max-gain pass of `calc_extremes`. -/
structure GainState where
  minVal : ℚ
  minIdx : ℕ
  maxGain : ℚ
  gainFrom : ℕ
  gainTo : ℕ
deriving DecidableEq

/-- One iteration of the max-gain loop at index `i` with value `v`. -/
def gainStep (s : GainState) (i : ℕ) (v : ℚ) : GainState :=
  let g := v / s.minVal - 1
  let s1 := if s.maxGain < g then
    { s with maxGain := g, gainFrom := s.minIdx, gainTo := i } else s
  if v < s1.minVal then { s1 with minVal := v, minIdx := i } else s1

/-- The max-gain loop: fold `gainStep` over the remaining values, tracking the
current index. -/
def gainLoop (s : GainState) (i : ℕ) : List ℚ → GainState
  | [] => s
  | v :: rest => gainLoop (gainStep s i v) (i + 1) rest

/-- Loop state of the max-drawdown pass of `calc_extremes`. -/
structure DdState where
  maxVal : ℚ
  maxIdx : ℕ
  maxDrawdown : ℚ
  ddFrom : ℕ
  ddTo : ℕ
deriving DecidableEq

/-- One iteration of the max-drawdown loop at index `i` with value `v`. -/
def ddStep (s : DdState) (i : ℕ) (v : ℚ) : DdState :=
  let g := v / s.maxVal - 1
  let s1 := if g < s.maxDrawdown then
    { s with maxDrawdown := g, ddFrom := s.maxIdx, ddTo := i } else s
  if s1.maxVal < v then { s1 with maxVal := v, maxIdx := i } else s1

/-- The max-drawdown loop. -/
def ddLoop (s : DdState) (i : ℕ) : List ℚ → DdState
  | [] => s
  | v :: rest => ddLoop (ddStep s i v) (i + 1) rest

/-- `calc_extremes(rows)` from the source: `None` for fewer than 2 rows,
otherwise two single forward passes with sentinels `-1e18` / `1e18`. -/
def calc_extremes (rows : List Row) : Option Extremes :=
  if rows.length < 2 then none
  else
    match rows.map (fun r => r.unit) with
    | [] => none
    | v0 :: vs =>
      let g := gainLoop ⟨v0, 0, -((10 : ℚ) ^ 18), 0, 0⟩ 1 vs
      let dd := ddLoop ⟨v0, 0, (10 : ℚ) ^ 18, 0, 0⟩ 1 vs
      some ⟨g.maxGain * 100, g.gainFrom, g.gainTo,
            dd.maxDrawdown * 100, dd.ddFrom, dd.ddTo⟩

/-! ## Zoom window mapping (datazoom percentages to indices) -/

/-- The datazoom state `{"start": …, "end": …}`. -/
structure Zoom where
  startPct : ℚ
  endPct : ℚ
deriving DecidableEq

/-- Python's built-in `round`: round half to even (banker's rounding). -/
def pyRound (x : ℚ) : ℤ :=
  let f := ⌊x⌋
  let r := x - f
  if r < 1 / 2 then f
  else if 1 / 2 < r then f + 1
  else if f % 2 = 0 then f else f + 1

/-- `max(0, min(n-1, r))` from the source, landing in `ℕ`. -/
def clampIdx (n : ℕ) (r : ℤ) : ℕ :=
  (max 0 (min ((n : ℤ) - 1) r)).toNat

/-- The datazoom index computation (source lines 288–291): round both
percentages onto `[0, n-1]` and swap if the end index is below the start. -/
def zoomIndices (zs ze : ℚ) (n : ℕ) : ℕ × ℕ :=
  let s := clampIdx n (pyRound (zs / 100 * ((n : ℚ) - 1)))
  let e := clampIdx n (pyRound (ze / 100 * ((n : ℚ) - 1)))
  if e < s then (e, s) else (s, e)

/-- `rows_visible` (source lines 286–294): the zoom slice `rows_all[s:e+1]`,
or `[]` when the filtered series is empty. -/
def rows_visible (rowsAll : List Row) (dz : Zoom) : List Row :=
  if rowsAll.isEmpty then []
  else
    let p := zoomIndices dz.startPct dz.endPct rowsAll.length
    (rowsAll.take (p.2 + 1)).drop p.1

/-! ## Moving-average configuration (`MA_ITEMS`) -/

/-- Window size of an `MA_ITEMS` entry (`MA_META[key]["win"]`). -/
def ma_win (key : String) : ℕ :=
  if key = "ma5" then 5 else if key = "ma10" then 10 else if key = "ma20" then 20 else 0

/-! ## Session state and the controller pipeline -/

/-- The session state held by the app (`st.session_state`). -/
structure AppState where
  fund_map : List (String × String)
  range_key : String
  enabled_mas : List String
  datazoom : Zoom
  sel_code : String
deriving DecidableEq

/-- The `DEFAULT_FUND_MAP` table from the source. -/
def DEFAULT_FUND_MAP : List (String × String) :=
  [("011892", "易方达先锋成长混合C"), ("021760", "中欧中证港股通创新药指数C"),
   ("020398", "中银港股通创新药混合C"), ("012805", "广发恒生科技ETF联接(QDII)C"),
   ("024420", "华夏创业板新能源ETF发起式联接C"), ("022654", "华安创业板50ETF联接I"),
   ("110022", "易方达消费行业")]

/-- Radio-button handler for the range selector (source lines 194–203): when
the chosen key differs from the stored one, store it and reset the zoom. -/
def apply_range (st : AppState) (key : String) : AppState :=
  if key ≠ st.range_key then { st with range_key := key, datazoom := ⟨0, 100⟩ } else st

/-- The dedicated "今年" (`ytd`) button (source lines 233–236): set the range
key to `ytd` and reset the zoom. -/
def apply_ytd_button (st : AppState) : AppState :=
  { st with range_key := "ytd", datazoom := ⟨0, 100⟩ }

/-- Moving-average checkbox handler (source line 215): replace the enabled set. -/
def apply_mas (st : AppState) (picked : List String) : AppState :=
  { st with enabled_mas := picked }

/-- Datazoom event handler (source lines 368–369): store the new percentages. -/
def apply_zoom (st : AppState) (zs ze : ℚ) : AppState :=
  { st with datazoom := ⟨zs, ze⟩ }

/-- `rows_all` (source lines 256–267): keep the observations whose date passes
`in_range` for the current selector, then sort (stably) by timestamp.  The
construction of the row dicts from the raw payload is ingestion and out of
scope; rows enter already carrying their derived calendar date. -/
def rows_all (rows : List Row) (key : String) (today : Date) : List Row :=
  List.insertionSort (fun a b => a.ts ≤ b.ts)
    (rows.filter (fun r => in_range r.d key today))

/-- `net_series` (source line 275): the `(ts, unit)` pairs of the filtered rows. -/
def net_series (rowsAll : List Row) : List (ℤ × ℚ) :=
  rowsAll.map (fun r => (r.ts, r.unit))

/-- `ma_series_map` (source lines 276–279): one moving average per enabled key,
computed over the **full** filtered series. -/
def ma_series_map (enabled : List String) (rowsAll : List Row) :
    List (String × List (ℤ × Option ℚ)) :=
  enabled.map (fun key => (key, moving_average (net_series rowsAll) (ma_win key)))

/-- The visible sub-range the controller hands to the analyzer
(source lines 285–294). -/
def compute_visible (raw : List Row) (st : AppState) (today : Date) : List Row :=
  rows_visible (rows_all raw st.range_key today) st.datazoom

/-- `ex = calc_extremes(rows_visible) if rows_visible else None`
(source line 296). -/
def compute_ex (raw : List Row) (st : AppState) (today : Date) : Option Extremes :=
  if compute_visible raw st today ≠ [] then calc_extremes (compute_visible raw st today)
  else none

/-! ## Configuration import (sidebar file uploader, source lines 149–165) -/

/-- A JSON value appearing as a dict entry value: a string or anything else. -/
inductive JVal where
  | jstr (s : String)
  | jother
deriving DecidableEq

/-- Whether a string consists of exactly six ASCII digits
(Python `re.fullmatch(six-digit pattern, str(k))`). -/
def is6digit (s : String) : Bool :=
  s.length == 6 && s.toList.all (fun c => c.isDigit)

/-- Python's `str.strip()`: drop leading and trailing whitespace. -/
def pyStrip (s : String) : String :=
  String.mk (((s.data.dropWhile (fun c => c.isWhitespace)).reverse.dropWhile
    (fun c => c.isWhitespace)).reverse)

/-- Whether an imported entry passes validation: a 6-digit key together with a
string value that is non-empty after stripping whitespace. -/
def validEntry (p : String × JVal) : Bool :=
  is6digit p.1 &&
    (match p.2 with
     | JVal.jstr s => pyStrip s ≠ ""
     | JVal.jother => false)

/-- The stripped name stored for a valid entry (`v.strip()`). -/
def entryName (v : JVal) : String :=
  match v with
  | JVal.jstr s => pyStrip s
  | JVal.jother => ""

/-- Python dict assignment `m[k] = v`: overwrite in place if the key exists
(keeping its original position), otherwise append. -/
def dictInsert : List (String × String) → String → String → List (String × String)
  | [], k, v => [(k, v)]
  | (k0, v0) :: rest, k, v =>
    if k0 = k then (k0, v) :: rest else (k0, v0) :: dictInsert rest k v

/-- The `new_map` accumulation loop of the import block: insert each entry that
passes validation, with its name stripped. -/
def buildMap (entries : List (String × JVal)) : List (String × String) :=
  entries.foldl
    (fun m p => if validEntry p then dictInsert m p.1 (entryName p.2) else m) []

/-- The configuration-import block (source lines 149–165): build the validated
map; if it is empty report an error (`false`) and leave the state untouched,
otherwise replace the fund map wholesale and fall back to the first key when
the selected code is no longer present. -/
def apply_import (st : AppState) (entries : List (String × JVal)) :
    AppState × Bool :=
  let new_map := buildMap entries
  if new_map.isEmpty then (st, false)
  else
    let st1 := { st with fund_map := new_map }
    let st2 :=
      if (new_map.lookup st.sel_code).isSome then st1
      else { st1 with sel_code := (new_map.headD ("", "")).1 }
    (st2, true)

/-! ## Specification-side definitions (mathematical restatements used to
characterise `calc_extremes`) -/

/-- The minimum of a list, seeded with its first element (`0` for `[]`). -/
def minD : List ℚ → ℚ
  | [] => 0
  | v :: vs => vs.foldl min v

/-- The maximum of a list, seeded with its first element (`0` for `[]`). -/
def maxD : List ℚ → ℚ
  | [] => 0
  | v :: vs => vs.foldl max v

/-- The candidate gain evaluated at index `i`: the value at `i` against the
minimum of the values strictly before `i`. -/
def gainAt (u : List ℚ) (i : ℕ) : ℚ :=
  u.getD i 0 / minD (u.take i) - 1

/-- The candidate drawdown evaluated at index `i`: the value at `i` against
the maximum of the values strictly before `i`. -/
def ddAt (u : List ℚ) (i : ℕ) : ℚ :=
  u.getD i 0 / maxD (u.take i) - 1

/-! ## Helper lemmas -/

theorem foldl_min_le_init (vs : List ℚ) (a : ℚ) : vs.foldl min a ≤ a := by
  induction vs generalizing a with
  | nil => exact le_refl a
  | cons w vs ih => exact le_trans (ih (min a w)) (min_le_left a w)

theorem foldl_min_le_mem (vs : List ℚ) (a x : ℚ) (hx : x ∈ vs) :
    vs.foldl min a ≤ x := by
  induction vs generalizing a with
  | nil => cases hx
  | cons w vs ih =>
    cases List.mem_cons.mp hx with
    | inl h =>
      subst h
      exact le_trans (foldl_min_le_init vs (min a x)) (min_le_right a x)
    | inr h => exact ih (min a w) h

theorem init_le_foldl_max (vs : List ℚ) (a : ℚ) : a ≤ vs.foldl max a := by
  induction vs generalizing a with
  | nil => exact le_refl a
  | cons w vs ih => exact le_trans (le_max_left a w) (ih (max a w))

theorem mem_le_foldl_max (vs : List ℚ) (a x : ℚ) (hx : x ∈ vs) :
    x ≤ vs.foldl max a := by
  induction vs generalizing a with
  | nil => cases hx
  | cons w vs ih =>
    cases List.mem_cons.mp hx with
    | inl h =>
      subst h
      exact le_trans (le_max_right a x) (init_le_foldl_max vs (max a x))
    | inr h => exact ih (max a w) h

theorem minD_le_getD (l : List ℚ) (j : ℕ) (hj : j < l.length) :
    minD l ≤ l.getD j 0 := by
  match l with
  | [] => simp at hj
  | v :: vs =>
    cases j with
    | zero => simpa [minD] using foldl_min_le_init vs v
    | succ j =>
      have hmem : vs.getD j 0 ∈ vs := by
        have : j < vs.length := by simpa using Nat.lt_of_succ_lt_succ hj
        rw [List.getD_eq_getElem vs 0 this]
        exact List.getElem_mem this
      simpa [minD] using foldl_min_le_mem vs v _ hmem

theorem getD_le_maxD (l : List ℚ) (j : ℕ) (hj : j < l.length) :
    l.getD j 0 ≤ maxD l := by
  match l with
  | [] => simp at hj
  | v :: vs =>
    cases j with
    | zero => simpa [maxD] using init_le_foldl_max vs v
    | succ j =>
      have hmem : vs.getD j 0 ∈ vs := by
        have : j < vs.length := by simpa using Nat.lt_of_succ_lt_succ hj
        rw [List.getD_eq_getElem vs 0 this]
        exact List.getElem_mem this
      simpa [maxD] using mem_le_foldl_max vs v _ hmem

theorem minD_append_single (l : List ℚ) (hl : l ≠ []) (x : ℚ) :
    minD (l ++ [x]) = min (minD l) x := by
  match l with
  | [] => exact absurd rfl hl
  | v :: vs => simp [minD, List.foldl_append]

theorem maxD_append_single (l : List ℚ) (hl : l ≠ []) (x : ℚ) :
    maxD (l ++ [x]) = max (maxD l) x := by
  match l with
  | [] => exact absurd rfl hl
  | v :: vs => simp [maxD, List.foldl_append]

theorem take_succ_getD (u : List ℚ) (k : ℕ) (hk : k < u.length) :
    u.take (k + 1) = u.take k ++ [u.getD k 0] := by
  rw [List.take_succ, List.getD_eq_getElem u 0 hk]
  simp [List.getElem?_eq_getElem hk]

theorem getD_take (u : List ℚ) (k j : ℕ) (h : j < k) :
    (u.take k).getD j 0 = u.getD j 0 := by
  induction u generalizing k j with
  | nil => simp
  | cons v vs ih =>
    cases k with
    | zero => omega
    | succ k =>
      cases j with
      | zero => simp
      | succ j => simpa using ih k j (by omega)

theorem take_ne_nil_of_pos (u : List ℚ) (k : ℕ) (h1 : 1 ≤ k) (hk : k ≤ u.length) :
    u.take k ≠ [] := by
  have : (u.take k).length = k := by simp; omega
  intro hcon
  rw [hcon] at this
  simp at this
  omega

/-! ## Simple bounds on the `calc_extremes` loops (no positivity needed) -/

theorem gainStep_bounds (s : GainState) (k : ℕ) (v : ℚ)
    (h1 : s.gainFrom ≤ s.gainTo) (h2 : s.gainTo < k) (h3 : s.minIdx < k) :
    (gainStep s k v).gainFrom ≤ (gainStep s k v).gainTo ∧
      (gainStep s k v).gainTo < k + 1 ∧ (gainStep s k v).minIdx < k + 1 := by
  simp only [gainStep]
  split_ifs <;> (try simp) <;> omega

theorem gainLoop_bounds : ∀ (rest : List ℚ) (k : ℕ) (s : GainState),
    s.gainFrom ≤ s.gainTo → s.gainTo < k → s.minIdx < k →
    (gainLoop s k rest).gainFrom ≤ (gainLoop s k rest).gainTo ∧
      (gainLoop s k rest).gainTo < k + rest.length := by
  intro rest
  induction rest with
  | nil =>
    intro k s h1 h2 h3
    exact ⟨h1, by simpa using h2⟩
  | cons v rest ih =>
    intro k s h1 h2 h3
    have hstep := gainStep_bounds s k v h1 h2 h3
    have hrec := ih (k + 1) (gainStep s k v) hstep.1 hstep.2.1 hstep.2.2
    rw [show gainLoop s k (v :: rest) = gainLoop (gainStep s k v) (k + 1) rest from rfl]
    have hlen : (v :: rest).length = rest.length + 1 := rfl
    exact ⟨hrec.1, by omega⟩

theorem ddStep_bounds (s : DdState) (k : ℕ) (v : ℚ)
    (h1 : s.ddFrom ≤ s.ddTo) (h2 : s.ddTo < k) (h3 : s.maxIdx < k) :
    (ddStep s k v).ddFrom ≤ (ddStep s k v).ddTo ∧
      (ddStep s k v).ddTo < k + 1 ∧ (ddStep s k v).maxIdx < k + 1 := by
  simp only [ddStep]
  split_ifs <;> (try simp) <;> omega

theorem ddLoop_bounds : ∀ (rest : List ℚ) (k : ℕ) (s : DdState),
    s.ddFrom ≤ s.ddTo → s.ddTo < k → s.maxIdx < k →
    (ddLoop s k rest).ddFrom ≤ (ddLoop s k rest).ddTo ∧
      (ddLoop s k rest).ddTo < k + rest.length := by
  intro rest
  induction rest with
  | nil =>
    intro k s h1 h2 h3
    exact ⟨h1, by simpa using h2⟩
  | cons v rest ih =>
    intro k s h1 h2 h3
    have hstep := ddStep_bounds s k v h1 h2 h3
    have hrec := ih (k + 1) (ddStep s k v) hstep.1 hstep.2.1 hstep.2.2
    rw [show ddLoop s k (v :: rest) = ddLoop (ddStep s k v) (k + 1) rest from rfl]
    have hlen : (v :: rest).length = rest.length + 1 := rfl
    exact ⟨hrec.1, by omega⟩

/-- Whenever `calc_extremes` returns a result, both spans are ordered and end
strictly inside the input. -/
theorem calc_extremes_bounds (rows : List Row) (r : Extremes)
    (h : calc_extremes rows = some r) :
    r.upFrom ≤ r.upTo ∧ r.upTo < rows.length ∧
      r.downFrom ≤ r.downTo ∧ r.downTo < rows.length := by
  unfold calc_extremes at h
  by_cases hlen : rows.length < 2
  · simp [hlen] at h
  · rw [if_neg hlen] at h
    cases hu : rows.map (fun r => r.unit) with
    | nil =>
      rw [hu] at h
      exact absurd h (by simp)
    | cons v0 vs =>
      rw [hu] at h
      have hlen2 : vs.length + 1 = rows.length := by
        have := congrArg List.length hu
        simpa using this.symm
      have hg := gainLoop_bounds vs 1 ⟨v0, 0, -((10 : ℚ) ^ 18), 0, 0⟩
        (le_refl 0) (by norm_num) (by norm_num)
      have hd := ddLoop_bounds vs 1 ⟨v0, 0, (10 : ℚ) ^ 18, 0, 0⟩
        (le_refl 0) (by norm_num) (by norm_num)
      have hr : r = ⟨(gainLoop ⟨v0, 0, -((10 : ℚ) ^ 18), 0, 0⟩ 1 vs).maxGain * 100,
          (gainLoop ⟨v0, 0, -((10 : ℚ) ^ 18), 0, 0⟩ 1 vs).gainFrom,
          (gainLoop ⟨v0, 0, -((10 : ℚ) ^ 18), 0, 0⟩ 1 vs).gainTo,
          (ddLoop ⟨v0, 0, (10 : ℚ) ^ 18, 0, 0⟩ 1 vs).maxDrawdown * 100,
          (ddLoop ⟨v0, 0, (10 : ℚ) ^ 18, 0, 0⟩ 1 vs).ddFrom,
          (ddLoop ⟨v0, 0, (10 : ℚ) ^ 18, 0, 0⟩ 1 vs).ddTo⟩ := by
        exact (Option.some_injective _ h).symm
      subst hr
      refine ⟨hg.1, ?_, hd.1, ?_⟩
      · show (gainLoop ⟨v0, 0, -((10 : ℚ) ^ 18), 0, 0⟩ 1 vs).gainTo < rows.length
        omega
      · show (ddLoop ⟨v0, 0, (10 : ℚ) ^ 18, 0, 0⟩ 1 vs).ddTo < rows.length
        omega

/-! ## Zoom mapping lemmas -/

theorem pyRound_intCast (m : ℤ) : pyRound ((m : ℤ) : ℚ) = m := by
  simp only [pyRound, Int.floor_intCast]
  norm_num

theorem pyRound_zero : pyRound 0 = 0 := by
  have := pyRound_intCast 0
  simpa using this

theorem clampIdx_le (n : ℕ) (hn : 1 ≤ n) (r : ℤ) : clampIdx n r ≤ n - 1 := by
  unfold clampIdx
  omega

theorem clampIdx_zero (n : ℕ) (hn : 1 ≤ n) : clampIdx n 0 = 0 := by
  unfold clampIdx
  omega

theorem clampIdx_last (n : ℕ) (hn : 1 ≤ n) : clampIdx n ((n : ℤ) - 1) = n - 1 := by
  unfold clampIdx
  omega

/-- The conjunction of properties claimed for the zoom-window mapping. -/
def ZoomMappingProps (n : ℕ) (a b p : ℚ) : Prop :=
  (zoomIndices a b n).1 ≤ (zoomIndices a b n).2 ∧
  (zoomIndices a b n).2 ≤ n - 1 ∧
  zoomIndices 0 100 n = (0, n - 1) ∧
  (zoomIndices p p n).1 = (zoomIndices p p n).2 ∧
  (∀ dz : Zoom, rows_visible [] dz = [])

/-- **C3.** For `n > 0` the datazoom mapping clamps both rounded indices into
`[0, n-1]` and swaps an inverted pair, so `start ≤ end ≤ n-1` always holds;
`(0, 100)` maps to `(0, n-1)`, equal percentages map to a single index, and an
empty filtered series yields the empty visible range (no division occurs). -/
theorem zoom_mapping_spec (n : ℕ) (hn : 0 < n) (a b p : ℚ) :
    ZoomMappingProps n a b p := by
  have h1 : (1 : ℕ) ≤ n := hn
  refine ⟨?_, ?_, ?_, ?_, ?_⟩
  · unfold zoomIndices
    by_cases h : clampIdx n (pyRound (b / 100 * ((n : ℚ) - 1))) <
        clampIdx n (pyRound (a / 100 * ((n : ℚ) - 1)))
    · simp [h]
      omega
    · simp [h]
      omega
  · unfold zoomIndices
    by_cases h : clampIdx n (pyRound (b / 100 * ((n : ℚ) - 1))) <
        clampIdx n (pyRound (a / 100 * ((n : ℚ) - 1)))
    · simpa [h] using clampIdx_le n h1 _
    · simpa [h] using clampIdx_le n h1 _
  · have hs : (0 : ℚ) / 100 * ((n : ℚ) - 1) = ((0 : ℤ) : ℚ) := by norm_num
    have he : (100 : ℚ) / 100 * ((n : ℚ) - 1) = (((n : ℤ) - 1 : ℤ) : ℚ) := by
      push_cast
      ring
    unfold zoomIndices
    rw [hs, he, pyRound_intCast, pyRound_intCast, clampIdx_zero n h1,
      clampIdx_last n h1]
    simp
  · unfold zoomIndices
    by_cases h : clampIdx n (pyRound (p / 100 * ((n : ℚ) - 1))) <
        clampIdx n (pyRound (p / 100 * ((n : ℚ) - 1)))
    · exact absurd h (lt_irrefl _)
    · simp [h]
  · intro dz
    rfl

/-- Witness for `zoom_mapping_spec` at `n = 5`, percentages `30`, `70`, `50`. -/
theorem zoom_mapping_spec_witness : 0 < 5 ∧ ZoomMappingProps 5 30 70 50 :=
  ⟨by decide, zoom_mapping_spec 5 (by decide) 30 70 50⟩

/-! ## C5: totality / sentinel behaviour of the analytics functions -/

/-- **C5.** The analytics functions are total Lean functions (hence never
raise), and on degenerate legal inputs they return sentinel "no data" values:
`calc_extremes` returns `none` for fewer than 2 points, `moving_average`,
the range filter and the zoom slicer map empty input to empty output, and the
controller propagates an empty visible range as "no result". -/
theorem analytics_total (rows : List Row) (h : rows.length < 2) (win : ℕ)
    (key : String) (today : Date) (dz : Zoom) (raw : List Row) (st : AppState) :
    calc_extremes rows = none ∧
    moving_average [] win = [] ∧
    rows_all [] key today = [] ∧
    rows_visible [] dz = [] ∧
    (compute_visible raw st today = [] → compute_ex raw st today = none) := by
  refine ⟨?_, rfl, rfl, rfl, ?_⟩
  · unfold calc_extremes
    rw [if_pos h]
  · intro hvis
    unfold compute_ex
    rw [if_neg]
    simpa using hvis

/-- Witness for `analytics_total` on concrete empty inputs. -/
theorem analytics_total_witness :
    ([] : List Row).length < 2 ∧
    (calc_extremes [] = none ∧
      moving_average [] 5 = [] ∧
      rows_all [] "6m" ⟨2025, 6, 1⟩ = [] ∧
      rows_visible [] ⟨0, 100⟩ = [] ∧
      (compute_visible [] ⟨DEFAULT_FUND_MAP, "6m", [], ⟨0, 100⟩, "110022"⟩
          ⟨2025, 6, 1⟩ = [] →
        compute_ex [] ⟨DEFAULT_FUND_MAP, "6m", [], ⟨0, 100⟩, "110022"⟩
          ⟨2025, 6, 1⟩ = none)) :=
  ⟨by decide,
    analytics_total [] (by decide) 5 "6m" ⟨2025, 6, 1⟩ ⟨0, 100⟩ []
      ⟨DEFAULT_FUND_MAP, "6m", [], ⟨0, 100⟩, "110022"⟩⟩

/-! ## C7: the concrete extremes scenario -/

/-- **C7.** On unit values `[1.0, 0.9, 1.2, 0.8, 1.5]`, `calc_extremes`
reports a maximum gain of `87.5%` spanning indices `3 → 4` and a maximum
drawdown of `-100/3 % ≈ -33.33%` spanning indices `2 → 3`. -/
theorem scenario_extremes :
    calc_extremes
      [⟨0, ⟨2024, 1, 1⟩, 1, none⟩, ⟨1, ⟨2024, 1, 2⟩, 9 / 10, none⟩,
       ⟨2, ⟨2024, 1, 3⟩, 12 / 10, none⟩, ⟨3, ⟨2024, 1, 4⟩, 8 / 10, none⟩,
       ⟨4, ⟨2024, 1, 5⟩, 15 / 10, none⟩] =
      some ⟨175 / 2, 3, 4, -100 / 3, 2, 3⟩ := by
  norm_num [calc_extremes, gainLoop, gainStep, ddLoop, ddStep]

/-! ## C8: state-transition (frame) properties -/

/-- The conjunction of frame properties claimed for the event handlers. -/
def StateTransitionProps (st : AppState) (key : String) (picked : List String)
    (zs ze : ℚ) : Prop :=
  (apply_range st key).datazoom = ⟨0, 100⟩ ∧
  (apply_range st key).range_key = key ∧
  (apply_range st key).enabled_mas = st.enabled_mas ∧
  (apply_ytd_button st).datazoom = ⟨0, 100⟩ ∧
  (apply_ytd_button st).range_key = "ytd" ∧
  (apply_mas st picked).range_key = st.range_key ∧
  (apply_mas st picked).datazoom = st.datazoom ∧
  (apply_zoom st zs ze).range_key = st.range_key ∧
  (apply_zoom st zs ze).enabled_mas = st.enabled_mas

/-- **C8.** A changed range selector (also via the dedicated `ytd` button)
resets the zoom window to `[0, 100]`; changing the enabled moving averages
leaves range key and zoom untouched, and a zoom event leaves range key and
enabled moving averages untouched. -/
theorem state_transition_spec (st : AppState) (key : String)
    (picked : List String) (zs ze : ℚ) (hk : key ≠ st.range_key) :
    StateTransitionProps st key picked zs ze := by
  unfold StateTransitionProps
  simp [apply_range, apply_ytd_button, apply_mas, apply_zoom, hk]

/-- Witness for `state_transition_spec` on a concrete state. -/
theorem state_transition_spec_witness :
    "1m" ≠ (⟨DEFAULT_FUND_MAP, "6m", [], ⟨30, 70⟩, "110022"⟩ : AppState).range_key ∧
    StateTransitionProps ⟨DEFAULT_FUND_MAP, "6m", [], ⟨30, 70⟩, "110022"⟩
      "1m" ["ma5"] 30 70 :=
  ⟨by decide,
    state_transition_spec ⟨DEFAULT_FUND_MAP, "6m", [], ⟨30, 70⟩, "110022"⟩
      "1m" ["ma5"] 30 70 (by decide)⟩

/-! ## C2: moving-average correctness -/

theorem movingAverageGo_length (win : ℕ) (q : List ℚ) (qsum : ℚ)
    (rest : List (ℤ × ℚ)) :
    (movingAverageGo win q qsum rest).length = rest.length := by
  induction rest generalizing q qsum with
  | nil => rfl
  | cons p rest ih =>
    obtain ⟨ts, v⟩ := p
    simp only [movingAverageGo]
    simp [ih]

theorem moving_average_length (series : List (ℤ × ℚ)) (win : ℕ) :
    (moving_average series win).length = series.length :=
  movingAverageGo_length win [] 0 series

theorem movingAverageGo_getD (win : ℕ) (hw : 1 ≤ win) :
    ∀ (rest : List (ℤ × ℚ)) (i : ℕ) (q : List ℚ), i < rest.length →
      q.length ≤ win →
    (movingAverageGo win q q.sum rest).getD i (0, none) =
      ((rest.getD i (0, 0)).1,
        if q.length + i + 1 < win then none
        else some (((q ++ (rest.map Prod.snd).take (i + 1)).drop
          (q.length + i + 1 - win)).sum / (win : ℚ))) := by
  intro rest
  induction rest with
  | nil =>
    intro i q hi _
    simp at hi
  | cons p rest ih =>
    obtain ⟨ts, v⟩ := p
    intro i q hi hq
    by_cases hb : win < (q ++ [v]).length
    · -- the window is full: the head of the queue is popped
      have hqlen : q.length = win := by
        simp at hb
        omega
      obtain ⟨qh, qt, rfl⟩ : ∃ h t, q = h :: t := by
        cases q with
        | nil =>
          exfalso
          simp at hqlen
          omega
        | cons a l => exact ⟨a, l, rfl⟩
      have hs2 : (qh :: qt).sum + v - ((qh :: qt) ++ [v]).headD 0 =
          (qt ++ [v]).sum := by
        simp [List.sum_append]
        ring
      have hq2 : ((qh :: qt) ++ [v]).tail = qt ++ [v] := by simp
      have hstep : movingAverageGo win (qh :: qt) (qh :: qt).sum ((ts, v) :: rest) =
          (ts, if (qt ++ [v]).length < win then none
            else some ((qt ++ [v]).sum / ((qt ++ [v]).length : ℚ))) ::
          movingAverageGo win (qt ++ [v]) (qt ++ [v]).sum rest := by
        simp only [movingAverageGo]
        rw [if_pos hb, if_pos hb, hq2, hs2]
      rw [hstep]
      have hqtlen : qt.length + 1 = win := by simpa using hqlen
      cases i with
      | zero =>
        have hcondR : ¬ (qh :: qt).length + 0 + 1 < win := by
          simp
          omega
        have hcondL : ¬ (qt ++ [v]).length < win := by
          simp
          omega
        rw [List.getD_cons_zero]
        simp only [List.getD_cons_zero, if_neg hcondR, if_neg hcondL]
        have hwin : ((qt ++ [v]).length : ℚ) = (win : ℚ) := by
          have : (qt ++ [v]).length = win := by
            simp
            omega
          rw [this]
        have hdrop : ((qh :: qt) ++ (((ts, v) :: rest).map Prod.snd).take (0 + 1)).drop
            ((qh :: qt).length + 0 + 1 - win) = qt ++ [v] := by
          have harith : (qh :: qt).length + 0 + 1 - win = 1 := by
            simp
            omega
          rw [harith]
          simp
        rw [hdrop, hwin]
      | succ j =>
        have hj : j < rest.length := by simpa using Nat.lt_of_succ_lt_succ hi
        have hq2len : (qt ++ [v]).length ≤ win := by
          simp
          omega
        rw [List.getD_cons_succ]
        rw [ih j (qt ++ [v]) hj hq2len]
        have hcond : ((qt ++ [v]).length + j + 1 < win) =
            ((qh :: qt).length + (j + 1) + 1 < win) := by
          simp
          omega
        have hwindow : ((qt ++ [v]) ++ (rest.map Prod.snd).take (j + 1)).drop
            ((qt ++ [v]).length + j + 1 - win) =
            ((qh :: qt) ++ (((ts, v) :: rest).map Prod.snd).take (j + 1 + 1)).drop
            ((qh :: qt).length + (j + 1) + 1 - win) := by
          have h1 : (qt ++ [v]).length + j + 1 - win = j + 1 := by
            simp
            omega
          have h2 : (qh :: qt).length + (j + 1) + 1 - win = j + 2 := by
            simp
            omega
          rw [h1, h2]
          simp [List.append_assoc]
        rw [hwindow]
        simp only [hcond, List.getD_cons_succ]
    · -- the window is not yet full: the queue grows
      have hs2 : (q ++ [v]).sum = q.sum + v := by simp [List.sum_append]
      have hstep : movingAverageGo win q q.sum ((ts, v) :: rest) =
          (ts, if (q ++ [v]).length < win then none
            else some ((q ++ [v]).sum / ((q ++ [v]).length : ℚ))) ::
          movingAverageGo win (q ++ [v]) (q ++ [v]).sum rest := by
        simp only [movingAverageGo]
        rw [if_neg hb, if_neg hb, hs2]
      rw [hstep]
      have hble : q.length + 1 ≤ win := by
        simp at hb
        omega
      cases i with
      | zero =>
        rw [List.getD_cons_zero]
        simp only [List.getD_cons_zero]
        by_cases hfull : q.length + 0 + 1 < win
        · have hcondL : (q ++ [v]).length < win := by
            simp
            omega
          rw [if_pos hcondL, if_pos hfull]
        · have hcondL : ¬ (q ++ [v]).length < win := by
            simp
            omega
          rw [if_neg hcondL, if_neg hfull]
          have hwin : ((q ++ [v]).length : ℚ) = (win : ℚ) := by
            have : (q ++ [v]).length = win := by
              simp
              omega
            rw [this]
          have hdrop : (q ++ (((ts, v) :: rest).map Prod.snd).take (0 + 1)).drop
              (q.length + 0 + 1 - win) = q ++ [v] := by
            have harith : q.length + 0 + 1 - win = 0 := by omega
            rw [harith]
            simp
          rw [hdrop, hwin]
      | succ j =>
        have hj : j < rest.length := by simpa using Nat.lt_of_succ_lt_succ hi
        rw [List.getD_cons_succ]
        rw [ih j (q ++ [v]) hj (by simpa using hble)]
        have hcond : ((q ++ [v]).length + j + 1 < win) =
            (q.length + (j + 1) + 1 < win) := by
          simp
          omega
        have hwindow : ((q ++ [v]) ++ (rest.map Prod.snd).take (j + 1)).drop
            ((q ++ [v]).length + j + 1 - win) =
            (q ++ (((ts, v) :: rest).map Prod.snd).take (j + 1 + 1)).drop
            (q.length + (j + 1) + 1 - win) := by
          have h1 : (q ++ [v]).length + j + 1 - win = q.length + (j + 1) + 1 - win := by
            simp
            omega
          rw [h1]
          simp [List.append_assoc]
        rw [hwindow]
        simp only [hcond, List.getD_cons_succ]

/-- The conjunction of properties claimed for `moving_average`. -/
def MovingAvgProps (series : List (ℤ × ℚ)) (win : ℕ) : Prop :=
  (moving_average series win).length = series.length ∧
  (∀ i, i < series.length →
    ((moving_average series win).getD i (0, none)).1 = (series.getD i (0, 0)).1) ∧
  (∀ i, i < series.length → i + 1 < win →
    ((moving_average series win).getD i (0, none)).2 = none) ∧
  (∀ i, i < series.length → win ≤ i + 1 →
    ((moving_average series win).getD i (0, none)).2 =
      some ((((series.map Prod.snd).take (i + 1)).drop (i + 1 - win)).sum / (win : ℚ)))

/-- **C2.** For any window `w ≥ 1`, `moving_average` returns a series of the
input's length, keeping each timestamp; entries before index `w-1` are absent,
and every later entry is exactly the arithmetic mean of the `w` values ending
at it (the incremental running sum introduces no deviation).  Scenario A:
`[1,2,3,4,5]` with window 3 gives `[absent, absent, 2, 3, 4]`. -/
theorem moving_average_spec (series : List (ℤ × ℚ)) (win : ℕ) (hw : 1 ≤ win) :
    MovingAvgProps series win ∧
    moving_average [(1, 1), (2, 2), (3, 3), (4, 4), (5, 5)] 3 =
      [(1, none), (2, none), (3, some 2), (4, some 3), (5, some 4)] := by
  constructor
  · have hkey : ∀ i, i < series.length →
        (moving_average series win).getD i (0, none) =
        ((series.getD i (0, 0)).1,
          if i + 1 < win then none
          else some ((((series.map Prod.snd).take (i + 1)).drop (i + 1 - win)).sum
            / (win : ℚ))) := by
      intro i hi
      have := movingAverageGo_getD win hw series i [] hi (by simp)
      simpa [moving_average] using this
    refine ⟨moving_average_length series win, ?_, ?_, ?_⟩
    · intro i hi
      rw [hkey i hi]
    · intro i hi hlt
      rw [hkey i hi]
      simp [hlt]
    · intro i hi hge
      rw [hkey i hi]
      have : ¬ i + 1 < win := by omega
      simp [this]
  · norm_num [moving_average, movingAverageGo]

/-- Witness for `moving_average_spec` at Scenario A's input. -/
theorem moving_average_spec_witness :
    1 ≤ 3 ∧ MovingAvgProps [(1, 1), (2, 2), (3, 3), (4, 4), (5, 5)] 3 :=
  ⟨by decide,
    (moving_average_spec [(1, 1), (2, 2), (3, 3), (4, 4), (5, 5)] 3 (by decide)).1⟩

/-! ## C9 / C10: configuration import -/

theorem dictInsert_ne_nil (m : List (String × String)) (k v : String) :
    dictInsert m k v ≠ [] := by
  cases m with
  | nil => simp [dictInsert]
  | cons p rest =>
    obtain ⟨k0, v0⟩ := p
    simp only [dictInsert]
    split_ifs <;> simp

theorem lookup_dictInsert (m : List (String × String)) (k v k' : String) :
    (dictInsert m k v).lookup k' = if k' = k then some v else m.lookup k' := by
  induction m with
  | nil =>
    by_cases h : k' = k
    · simp [dictInsert, List.lookup, h]
    · have hb : (k' == k) = false := beq_eq_false_iff_ne.mpr h
      simp [dictInsert, List.lookup, h, hb]
  | cons p rest ih =>
    obtain ⟨k0, v0⟩ := p
    by_cases h0 : k0 = k
    · subst h0
      by_cases h : k' = k0
      · simp [dictInsert, List.lookup, h]
      · have hb : (k' == k0) = false := beq_eq_false_iff_ne.mpr h
        simp [dictInsert, List.lookup, h, hb]
    · by_cases h : k' = k0
      · subst h
        have hk : ¬ k' = k := h0
        simp [dictInsert, h0, List.lookup, hk]
      · have hb : (k' == k0) = false := beq_eq_false_iff_ne.mpr h
        simp [dictInsert, h0, List.lookup, h, hb, ih]

/-- The conditional foldl of the import loop equals the unconditional foldl
over the surviving (validated) entries. -/
theorem import_foldl_filter (l : List (String × JVal)) :
    ∀ m : List (String × String),
    l.foldl (fun m p => if validEntry p then dictInsert m p.1 (entryName p.2)
        else m) m =
      (l.filter validEntry).foldl
        (fun m p => dictInsert m p.1 (entryName p.2)) m := by
  induction l with
  | nil => intro m; rfl
  | cons p l ih =>
    intro m
    by_cases h : validEntry p
    · simp [List.filter_cons, h, ih]
    · simp [List.filter_cons, h, ih]

theorem buildMap_drop_invalid (entries : List (String × JVal)) :
    buildMap entries = buildMap (entries.filter validEntry) := by
  unfold buildMap
  rw [import_foldl_filter, import_foldl_filter]
  rw [List.filter_filter]
  have : (fun a => validEntry a && validEntry a) = validEntry := by
    funext a
    rw [Bool.and_self]
  rw [this]

theorem import_go_ne_nil (l : List (String × JVal)) :
    ∀ m : List (String × String), m ≠ [] →
    l.foldl (fun m p => if validEntry p then dictInsert m p.1 (entryName p.2)
        else m) m ≠ [] := by
  induction l with
  | nil => intro m hm; exact hm
  | cons p l ih =>
    intro m hm
    by_cases h : validEntry p
    · simp only [List.foldl_cons, if_pos h]
      exact ih _ (dictInsert_ne_nil m p.1 (entryName p.2))
    · simp only [List.foldl_cons, if_neg h]
      exact ih m hm

theorem buildMap_eq_nil_iff (entries : List (String × JVal)) :
    buildMap entries = [] ↔ entries.filter validEntry = [] := by
  constructor
  · intro h
    by_contra hne
    cases hf : entries.filter validEntry with
    | nil => exact hne hf
    | cons p rest =>
      have hvalid : validEntry p := by
        have : p ∈ entries.filter validEntry := by
          rw [hf]
          exact List.mem_cons_self p rest
        exact (List.mem_filter.mp this).2
      have : buildMap entries ≠ [] := by
        rw [buildMap_drop_invalid, buildMap, hf]
        simp only [List.foldl_cons, if_pos hvalid]
        exact import_go_ne_nil rest _ (dictInsert_ne_nil [] p.1 (entryName p.2))
      exact this h
  · intro h
    rw [buildMap_drop_invalid, h]
    rfl

theorem lookup_import_mem (l : List (String × JVal)) :
    ∀ (m : List (String × String)) (k : String),
    (l.foldl (fun m p => if validEntry p then dictInsert m p.1 (entryName p.2)
        else m) m).lookup k ≠ none ↔
      (m.lookup k ≠ none ∨ ∃ p ∈ l, validEntry p ∧ p.1 = k) := by
  induction l with
  | nil =>
    intro m k
    simp
  | cons p l ih =>
    intro m k
    by_cases h : validEntry p
    · simp only [List.foldl_cons, if_pos h]
      rw [ih]
      constructor
      · rintro (hm | hex)
        · rw [lookup_dictInsert] at hm
          by_cases hk : k = p.1
          · exact Or.inr ⟨p, List.mem_cons_self p l, h, hk.symm⟩
          · rw [if_neg hk] at hm
            exact Or.inl hm
        · obtain ⟨q, hq, hv, hk⟩ := hex
          exact Or.inr ⟨q, List.mem_cons_of_mem p hq, hv, hk⟩
      · rintro (hm | ⟨q, hq, hv, hk⟩)
        · left
          rw [lookup_dictInsert]
          by_cases hk : k = p.1
          · simp [hk]

          · rw [if_neg hk]
            exact hm
        · cases List.mem_cons.mp hq with
          | inl heq =>
            subst heq
            left
            rw [lookup_dictInsert, ← hk]
            simp
          | inr hmem => exact Or.inr ⟨q, hmem, hv, hk⟩
    · simp only [List.foldl_cons, if_neg h]
      rw [ih]
      constructor
      · rintro (hm | ⟨q, hq, hv, hk⟩)
        · exact Or.inl hm
        · exact Or.inr ⟨q, List.mem_cons_of_mem p hq, hv, hk⟩
      · rintro (hm | ⟨q, hq, hv, hk⟩)
        · exact Or.inl hm
        · cases List.mem_cons.mp hq with
          | inl heq =>
            subst heq
            exact absurd hv h
          | inr hmem => exact Or.inr ⟨q, hmem, hv, hk⟩

theorem lookup_import_value (l : List (String × JVal)) :
    ∀ (m : List (String × String)) (k s : String),
    (l.foldl (fun m p => if validEntry p then dictInsert m p.1 (entryName p.2)
        else m) m).lookup k = some s →
      (m.lookup k = some s ∨ ∃ p ∈ l, validEntry p ∧ p.1 = k ∧ s = entryName p.2) := by
  induction l with
  | nil =>
    intro m k s h
    exact Or.inl h
  | cons p l ih =>
    intro m k s h
    by_cases hv : validEntry p
    · simp only [List.foldl_cons, if_pos hv] at h
      cases ih _ k s h with
      | inl hm =>
        rw [lookup_dictInsert] at hm
        by_cases hk : k = p.1
        · rw [if_pos hk] at hm
          exact Or.inr ⟨p, List.mem_cons_self p l, hv, hk.symm,
            (Option.some_injective _ hm).symm⟩
        · rw [if_neg hk] at hm
          exact Or.inl hm
      | inr hex =>
        obtain ⟨q, hq, hqv, hqk, hqs⟩ := hex
        exact Or.inr ⟨q, List.mem_cons_of_mem p hq, hqv, hqk, hqs⟩
    · simp only [List.foldl_cons, if_neg hv] at h
      cases ih m k s h with
      | inl hm => exact Or.inl hm
      | inr hex =>
        obtain ⟨q, hq, hqv, hqk, hqs⟩ := hex
        exact Or.inr ⟨q, List.mem_cons_of_mem p hq, hqv, hqk, hqs⟩

/-- **C9.** Invalid entries (non-6-digit key, or a value that is not a
non-empty string) contribute nothing to the imported map, and when no entry
survives validation the import reports an error (`false`) and returns the
session state entirely unchanged — no partial apply. -/
theorem import_validation_spec (st : AppState) (entries : List (String × JVal))
    (hempty : entries.filter validEntry = []) :
    buildMap entries = buildMap (entries.filter validEntry) ∧
    apply_import st entries = (st, false) := by
  refine ⟨buildMap_drop_invalid entries, ?_⟩
  have hnil : buildMap entries = [] := (buildMap_eq_nil_iff entries).mpr hempty
  unfold apply_import
  rw [hnil]
  rfl

/-- Witness for `import_validation_spec`: both entries fail validation. -/
theorem import_validation_spec_witness :
    ([(("12345" : String), JVal.jstr "Bar"),
      (("123456" : String), JVal.jother)].filter validEntry = []) ∧
    (buildMap [("12345", JVal.jstr "Bar"), ("123456", JVal.jother)] =
      buildMap ([("12345", JVal.jstr "Bar"),
        ("123456", JVal.jother)].filter validEntry) ∧
    apply_import ⟨DEFAULT_FUND_MAP, "6m", [], ⟨0, 100⟩, "110022"⟩
        [("12345", JVal.jstr "Bar"), ("123456", JVal.jother)] =
      (⟨DEFAULT_FUND_MAP, "6m", [], ⟨0, 100⟩, "110022"⟩, false)) :=
  ⟨by decide,
    import_validation_spec ⟨DEFAULT_FUND_MAP, "6m", [], ⟨0, 100⟩, "110022"⟩
      [("12345", JVal.jstr "Bar"), ("123456", JVal.jother)] (by decide)⟩

/-- The conjunction of properties claimed for a successful import. -/
def ImportReplaceProps (st : AppState) (entries : List (String × JVal)) : Prop :=
  (apply_import st entries).2 = true ∧
  (apply_import st entries).1.fund_map = buildMap entries ∧
  (∀ k, (buildMap entries).lookup k ≠ none ↔
    ∃ p ∈ entries, validEntry p ∧ p.1 = k) ∧
  (∀ k s, (buildMap entries).lookup k = some s →
    ∃ t, (k, JVal.jstr t) ∈ entries ∧ s = pyStrip t) ∧
  ((buildMap entries).lookup st.sel_code ≠ none →
    (apply_import st entries).1.sel_code = st.sel_code) ∧
  ((buildMap entries).lookup st.sel_code = none →
    (apply_import st entries).1.sel_code = ((buildMap entries).headD ("", "")).1)

/-- **C10.** When at least one entry validates, the fund map is replaced
wholesale by exactly the validated entries with trimmed names — a key is
present afterwards iff some valid imported entry carries it, so prior entries
and the built-in defaults are gone — and the selected code falls back to the
first key of the new map exactly when it is absent from it. -/
theorem import_replace_spec (st : AppState) (entries : List (String × JVal))
    (hne : entries.filter validEntry ≠ []) :
    ImportReplaceProps st entries := by
  have hnotnil : buildMap entries ≠ [] := by
    intro h
    exact hne ((buildMap_eq_nil_iff entries).mp h)
  have hnotempty : ¬ (buildMap entries).isEmpty := by
    simpa [List.isEmpty_iff] using hnotnil
  refine ⟨?_, ?_, ?_, ?_, ?_, ?_⟩
  · unfold apply_import
    rw [if_neg hnotempty]
  · unfold apply_import
    rw [if_neg hnotempty]
    by_cases hsel : ((buildMap entries).lookup st.sel_code).isSome <;>
      simp [hsel]
  · intro k
    have := lookup_import_mem entries [] k
    simpa [buildMap, List.lookup] using this
  · intro k s hs
    have := lookup_import_value entries [] k s
    rw [show (buildMap entries).lookup k = List.lookup k (buildMap entries)
      from rfl] at hs
    have hres := this (by simpa [buildMap] using hs)
    cases hres with
    | inl h => simp [List.lookup] at h
    | inr h =>
      obtain ⟨p, hp, hv, hk, hsval⟩ := h
      obtain ⟨pk, pv⟩ := p
      cases pv with
      | jstr t =>
        refine ⟨t, ?_, ?_⟩
        · have : pk = k := hk
          rw [← this]
          exact hp
        · simpa [entryName] using hsval
      | jother =>
        exfalso
        simp [validEntry] at hv
  · intro hsome
    unfold apply_import
    rw [if_neg hnotempty]
    have : ((buildMap entries).lookup st.sel_code).isSome := by
      cases h : (buildMap entries).lookup st.sel_code with
      | none => exact absurd h hsome
      | some v => rfl
    simp [this]
  · intro hnone
    unfold apply_import
    rw [if_neg hnotempty]
    have : ¬ ((buildMap entries).lookup st.sel_code).isSome := by
      rw [hnone]
      simp
    simp [this]

/-- Witness for `import_replace_spec` on a concrete import. -/
theorem import_replace_spec_witness :
    ([(("123456" : String), JVal.jstr " Foo ")].filter validEntry ≠ []) ∧
    ImportReplaceProps ⟨DEFAULT_FUND_MAP, "6m", [], ⟨0, 100⟩, "110022"⟩
      [("123456", JVal.jstr " Foo ")] :=
  ⟨by decide,
    import_replace_spec ⟨DEFAULT_FUND_MAP, "6m", [], ⟨0, 100⟩, "110022"⟩
      [("123456", JVal.jstr " Foo ")] (by decide)⟩

/-! ## C6: range filtering -/

theorem in_range_all (d today : Date) : in_range d "all" today = true := by
  rw [in_range, if_pos rfl]

theorem in_range_ytd (d today : Date) :
    in_range d "ytd" today = decide (Date.le (ytd_start today) d) := by
  rw [in_range, if_neg (by decide), if_pos rfl]

theorem in_range_days (d today : Date) (key : String) (ds : ℕ)
    (hk : rangeDays key = some ds) (h0 : ds ≠ 0) :
    in_range d key today = decide (Date.le (subDays today ds) d) := by
  have hka : key ≠ "all" := by
    rintro rfl
    have : rangeDays "all" = none := by decide
    rw [this] at hk
    cases hk
  have hky : key ≠ "ytd" := by
    rintro rfl
    have : rangeDays "ytd" = none := by decide
    rw [this] at hk
    cases hk
  rw [in_range, if_neg hka, if_neg hky]
  rw [rangeDays] at hk
  cases hfind : RANGE_ITEMS.find? (fun x => x.key == key) with
  | none =>
    rw [hfind] at hk
    cases hk
  | some conf =>
    rw [hfind] at hk
    rw [show (some conf).bind (fun x => x.days) = conf.days from rfl] at hk
    have hgoal : (match some conf with
        | none => true
        | some conf =>
          match conf.days with
          | none => true
          | some 0 => true
          | some ds => decide (Date.le (subDays today ds) d)) =
        (match conf.days with
        | none => true
        | some 0 => true
        | some ds => decide (Date.le (subDays today ds) d)) := rfl
    rw [hgoal, hk]
    cases ds with
    | zero => exact absurd rfl h0
    | succ n => rfl

/-- The sort in `rows_all` is by timestamp; on a strictly increasing input the
filtered list is still sorted, so the sort is the identity. -/
theorem rows_all_eq_filter (rows : List Row) (key : String) (today : Date)
    (hsorted : rows.Pairwise (fun a b => a.ts < b.ts)) :
    rows_all rows key today =
      rows.filter (fun r => in_range r.d key today) := by
  unfold rows_all
  have hpair : (rows.filter (fun r => in_range r.d key today)).Pairwise
      (fun a b : Row => a.ts < b.ts) :=
    List.Pairwise.sublist (List.filter_sublist rows) hsorted
  have hle : (rows.filter (fun r => in_range r.d key today)).Pairwise
      (fun a b : Row => a.ts ≤ b.ts) :=
    hpair.imp (fun h => le_of_lt h)
  exact List.Sorted.insertionSort_eq hle

/-- The conjunction of properties claimed for the range filter. -/
def RangeFilterProps (rows : List Row) (today : Date) : Prop :=
  rows_all rows "all" today = rows ∧
  (∀ key, (rows_all rows key today).Sublist rows) ∧
  (∀ r, r ∈ rows_all rows "ytd" today ↔
    r ∈ rows ∧ Date.le (ytd_start today) r.d) ∧
  (∀ key ds, rangeDays key = some ds → ds ≠ 0 →
    ∀ r, r ∈ rows_all rows key today ↔
      r ∈ rows ∧ Date.le (subDays today ds) r.d)

/-- **C6.** On a time series strictly increasing by timestamp: the `all`
selector is the identity; filtering preserves the input order (the output is a
sublist of the input); `ytd` keeps exactly the observations dated on or after
January 1 of the current year; and each day-count selector keeps exactly the
observations dated on or after `today - days`. -/
theorem range_filter_spec (rows : List Row) (today : Date)
    (hsorted : rows.Pairwise (fun a b => a.ts < b.ts)) :
    RangeFilterProps rows today := by
  refine ⟨?_, ?_, ?_, ?_⟩
  · rw [rows_all_eq_filter rows "all" today hsorted]
    have : (fun r : Row => in_range r.d "all" today) = (fun _ => true) := by
      funext r
      exact in_range_all r.d today
    rw [this]
    exact List.filter_true rows
  · intro key
    rw [rows_all_eq_filter rows key today hsorted]
    exact List.filter_sublist rows
  · intro r
    rw [rows_all_eq_filter rows "ytd" today hsorted]
    rw [List.mem_filter]
    constructor
    · rintro ⟨hmem, hr⟩
      rw [in_range_ytd] at hr
      exact ⟨hmem, of_decide_eq_true hr⟩
    · rintro ⟨hmem, hr⟩
      refine ⟨hmem, ?_⟩
      rw [in_range_ytd]
      exact decide_eq_true hr
  · intro key ds hk h0 r
    rw [rows_all_eq_filter rows key today hsorted]
    rw [List.mem_filter]
    constructor
    · rintro ⟨hmem, hr⟩
      rw [in_range_days r.d today key ds hk h0] at hr
      exact ⟨hmem, of_decide_eq_true hr⟩
    · rintro ⟨hmem, hr⟩
      refine ⟨hmem, ?_⟩
      rw [in_range_days r.d today key ds hk h0]
      exact decide_eq_true hr

/-- Witness for `range_filter_spec` on a concrete two-point series. -/
theorem range_filter_spec_witness :
    ([⟨100, ⟨2025, 1, 10⟩, 1, none⟩, ⟨200, ⟨2025, 5, 1⟩, 2, none⟩] :
      List Row).Pairwise (fun a b => a.ts < b.ts) ∧
    RangeFilterProps [⟨100, ⟨2025, 1, 10⟩, 1, none⟩, ⟨200, ⟨2025, 5, 1⟩, 2, none⟩]
      ⟨2025, 6, 1⟩ :=
  ⟨by decide,
    range_filter_spec [⟨100, ⟨2025, 1, 10⟩, 1, none⟩, ⟨200, ⟨2025, 5, 1⟩, 2, none⟩]
      ⟨2025, 6, 1⟩ (by decide)⟩

/-! ## C1: full characterisation of `calc_extremes` -/

theorem getD_zero_drop (u : List ℚ) (k : ℕ) (hk : k < u.length) :
    (u.drop k).getD 0 0 = u.getD k 0 := by
  induction u generalizing k with
  | nil => simp at hk
  | cons a l ih =>
    cases k with
    | zero => rfl
    | succ k => exact ih k (Nat.lt_of_succ_lt_succ hk)

/-- Loop invariant of the max-gain pass after the iterations for indices
`1 … k-1` over the full unit-value list `u`. -/
structure GainInv (u : List ℚ) (k : ℕ) (s : GainState) : Prop where
  minval : s.minVal = minD (u.take k)
  minidx_lt : s.minIdx < k
  minidx_val : u.getD s.minIdx 0 = s.minVal
  minidx_first : ∀ j, j < s.minIdx → s.minVal < u.getD j 0
  sentinel : k ≤ 1 → s.maxGain = -((10 : ℚ) ^ 18)
  to_pos : 2 ≤ k → 1 ≤ s.gainTo
  to_lt : 2 ≤ k → s.gainTo < k
  gain_eq : 2 ≤ k → s.maxGain = gainAt u s.gainTo
  gain_ub : ∀ i, 1 ≤ i → i < k → gainAt u i ≤ s.maxGain
  gain_first : ∀ i, 1 ≤ i → i < s.gainTo → gainAt u i < s.maxGain
  from_lt : 2 ≤ k → s.gainFrom < s.gainTo
  from_val : 2 ≤ k → u.getD s.gainFrom 0 = minD (u.take s.gainTo)
  from_first : 2 ≤ k → ∀ j, j < s.gainFrom → minD (u.take s.gainTo) < u.getD j 0

theorem gainStep_inv (u : List ℚ) (k : ℕ) (s : GainState) (v : ℚ)
    (hpos : ∀ j, j < u.length → 0 < u.getD j 0)
    (h1 : 1 ≤ k) (hk : k < u.length) (hv : u.getD k 0 = v)
    (inv : GainInv u k s) :
    GainInv u (k + 1) (gainStep s k v) := by
  have hminpos : 0 < s.minVal := by
    rw [← inv.minidx_val]
    exact hpos s.minIdx (lt_trans inv.minidx_lt hk)
  have hvpos : 0 < v := hv ▸ hpos k hk
  have hg1 : (-1 : ℚ) < v / s.minVal - 1 := by
    have := div_pos hvpos hminpos
    linarith
  have hgain_k : gainAt u k = v / s.minVal - 1 := by
    simp only [gainAt]
    rw [hv, ← inv.minval]
  have htakene : u.take k ≠ [] := take_ne_nil_of_pos u k h1 (le_of_lt hk)
  have hminD_succ : minD (u.take (k + 1)) = min (minD (u.take k)) v := by
    rw [take_succ_getD u k hk, hv, minD_append_single _ htakene]
  have htklen : (u.take k).length = k := by
    simp
    omega
  have hminD_le : ∀ j, j < k → minD (u.take k) ≤ u.getD j 0 := by
    intro j hj
    have := minD_le_getD (u.take k) j (by rw [htklen]; exact hj)
    rwa [getD_take u k j hj] at this
  by_cases hup : s.maxGain < v / s.minVal - 1
  · by_cases hmin : v < s.minVal
    · have hstep : gainStep s k v = ⟨v, k, v / s.minVal - 1, s.minIdx, k⟩ := by
        simp [gainStep, hup, hmin]
      rw [hstep]
      exact {
        minval := by
          rw [hminD_succ, ← inv.minval, min_eq_right (le_of_lt hmin)]
        minidx_lt := Nat.lt_succ_self k
        minidx_val := hv
        minidx_first := by
          intro j hj
          exact lt_of_lt_of_le (lt_of_lt_of_le hmin (le_of_eq inv.minval))
            (hminD_le j hj)
        sentinel := by intro hcon; omega
        to_pos := fun _ => h1
        to_lt := fun _ => Nat.lt_succ_self k
        gain_eq := fun _ => hgain_k.symm
        gain_ub := by
          intro i h1i hik
          rcases Nat.lt_succ_iff_lt_or_eq.mp hik with h | h
          · exact le_trans (inv.gain_ub i h1i h) (le_of_lt hup)
          · subst h
            rw [hgain_k]
        gain_first := by
          intro i h1i hik
          exact lt_of_le_of_lt (inv.gain_ub i h1i hik) hup
        from_lt := fun _ => inv.minidx_lt
        from_val := fun _ => by rw [inv.minidx_val, inv.minval]
        from_first := fun _ j hj => inv.minval ▸ inv.minidx_first j hj }
    · have hstep : gainStep s k v =
          ⟨s.minVal, s.minIdx, v / s.minVal - 1, s.minIdx, k⟩ := by
        simp [gainStep, hup, hmin]
      rw [hstep]
      exact {
        minval := by
          rw [hminD_succ, min_eq_left (inv.minval ▸ not_lt.mp hmin)]
          exact inv.minval
        minidx_lt := lt_trans inv.minidx_lt (Nat.lt_succ_self k)
        minidx_val := inv.minidx_val
        minidx_first := inv.minidx_first
        sentinel := by intro hcon; omega
        to_pos := fun _ => h1
        to_lt := fun _ => Nat.lt_succ_self k
        gain_eq := fun _ => hgain_k.symm
        gain_ub := by
          intro i h1i hik
          rcases Nat.lt_succ_iff_lt_or_eq.mp hik with h | h
          · exact le_trans (inv.gain_ub i h1i h) (le_of_lt hup)
          · subst h
            rw [hgain_k]
        gain_first := by
          intro i h1i hik
          exact lt_of_le_of_lt (inv.gain_ub i h1i hik) hup
        from_lt := fun _ => inv.minidx_lt
        from_val := fun _ => by rw [inv.minidx_val, inv.minval]
        from_first := fun _ j hj => inv.minval ▸ inv.minidx_first j hj }
  · have hk2 : 2 ≤ k := by
      by_contra hcon
      have hk1 : k ≤ 1 := by omega
      apply hup
      rw [inv.sentinel hk1]
      have hlt : (-((10 : ℚ) ^ 18)) < -1 := by norm_num
      exact lt_trans hlt hg1
    by_cases hmin : v < s.minVal
    · have hstep : gainStep s k v =
          ⟨v, k, s.maxGain, s.gainFrom, s.gainTo⟩ := by
        simp [gainStep, hup, hmin]
      rw [hstep]
      exact {
        minval := by
          rw [hminD_succ, ← inv.minval, min_eq_right (le_of_lt hmin)]
        minidx_lt := Nat.lt_succ_self k
        minidx_val := hv
        minidx_first := by
          intro j hj
          exact lt_of_lt_of_le (lt_of_lt_of_le hmin (le_of_eq inv.minval))
            (hminD_le j hj)
        sentinel := by intro hcon; omega
        to_pos := fun _ => inv.to_pos hk2
        to_lt := fun _ => lt_trans (inv.to_lt hk2) (Nat.lt_succ_self k)
        gain_eq := fun _ => inv.gain_eq hk2
        gain_ub := by
          intro i h1i hik
          rcases Nat.lt_succ_iff_lt_or_eq.mp hik with h | h
          · exact inv.gain_ub i h1i h
          · subst h
            rw [hgain_k]
            exact not_lt.mp hup
        gain_first := inv.gain_first
        from_lt := fun _ => inv.from_lt hk2
        from_val := fun _ => inv.from_val hk2
        from_first := fun _ => inv.from_first hk2 }
    · have hstep : gainStep s k v = s := by
        simp [gainStep, hup, hmin]
      rw [hstep]
      exact {
        minval := by
          rw [hminD_succ, min_eq_left (inv.minval ▸ not_lt.mp hmin)]
          exact inv.minval
        minidx_lt := lt_trans inv.minidx_lt (Nat.lt_succ_self k)
        minidx_val := inv.minidx_val
        minidx_first := inv.minidx_first
        sentinel := by intro hcon; omega
        to_pos := fun _ => inv.to_pos hk2
        to_lt := fun _ => lt_trans (inv.to_lt hk2) (Nat.lt_succ_self k)
        gain_eq := fun _ => inv.gain_eq hk2
        gain_ub := by
          intro i h1i hik
          rcases Nat.lt_succ_iff_lt_or_eq.mp hik with h | h
          · exact inv.gain_ub i h1i h
          · subst h
            rw [hgain_k]
            exact not_lt.mp hup
        gain_first := inv.gain_first
        from_lt := fun _ => inv.from_lt hk2
        from_val := fun _ => inv.from_val hk2
        from_first := fun _ => inv.from_first hk2 }

theorem gainLoop_inv (u : List ℚ)
    (hpos : ∀ j, j < u.length → 0 < u.getD j 0) :
    ∀ (rest : List ℚ) (k : ℕ) (s : GainState), u.drop k = rest → 1 ≤ k →
      k ≤ u.length → GainInv u k s →
      GainInv u u.length (gainLoop s k rest) := by
  intro rest
  induction rest with
  | nil =>
    intro k s hdrop h1 hle inv
    have hlen : u.length ≤ k := by
      have := congrArg List.length hdrop
      simp at this
      omega
    have hkeq : k = u.length := le_antisymm hle hlen
    exact hkeq ▸ inv
  | cons v rest ih =>
    intro k s hdrop h1 hle inv
    have hlen : (u.drop k).length = u.length - k := by simp
    have hklt : k < u.length := by
      rw [hdrop] at hlen
      simp at hlen
      omega
    have hv : u.getD k 0 = v := by
      have h0 := getD_zero_drop u k hklt
      rw [hdrop] at h0
      exact h0.symm
    have hdrop' : u.drop (k + 1) = rest := by
      have h1d : List.drop 1 (List.drop k u) = List.drop (k + 1) u :=
        List.drop_drop 1 k u
      rw [hdrop] at h1d
      exact h1d.symm
    show GainInv u u.length (gainLoop (gainStep s k v) (k + 1) rest)
    exact ih (k + 1) (gainStep s k v) hdrop' (by omega) (by omega)
      (gainStep_inv u k s v hpos h1 hklt hv inv)

theorem gainInv_init (v0 : ℚ) (vs : List ℚ) :
    GainInv (v0 :: vs) 1 ⟨v0, 0, -((10 : ℚ) ^ 18), 0, 0⟩ := by
  exact {
    minval := rfl
    minidx_lt := Nat.lt_succ_self 0
    minidx_val := rfl
    minidx_first := by
      intro j hj
      exact absurd hj (by simp)
    sentinel := fun _ => rfl
    to_pos := by intro h; omega
    to_lt := by intro h; omega
    gain_eq := by intro h; omega
    gain_ub := by intro i h1i hik; omega
    gain_first := by
      intro i h1i hik
      exact absurd hik (by simp)
    from_lt := by intro h; omega
    from_val := by intro h; omega
    from_first := by intro h; omega }

/-- Loop invariant of the max-drawdown pass after the iterations for indices
`1 … k-1` over the full unit-value list `u`. -/
structure DdInv (u : List ℚ) (k : ℕ) (s : DdState) : Prop where
  maxval : s.maxVal = maxD (u.take k)
  maxidx_lt : s.maxIdx < k
  maxidx_val : u.getD s.maxIdx 0 = s.maxVal
  maxidx_first : ∀ j, j < s.maxIdx → u.getD j 0 < s.maxVal
  sentinel : k ≤ 1 → s.maxDrawdown = (10 : ℚ) ^ 18
  to_pos : 2 ≤ k → 1 ≤ s.ddTo
  to_lt : 2 ≤ k → s.ddTo < k
  dd_eq : 2 ≤ k → s.maxDrawdown = ddAt u s.ddTo
  dd_lb : ∀ i, 1 ≤ i → i < k → s.maxDrawdown ≤ ddAt u i
  dd_first : ∀ i, 1 ≤ i → i < s.ddTo → s.maxDrawdown < ddAt u i
  from_lt : 2 ≤ k → s.ddFrom < s.ddTo
  from_val : 2 ≤ k → u.getD s.ddFrom 0 = maxD (u.take s.ddTo)
  from_first : 2 ≤ k → ∀ j, j < s.ddFrom → u.getD j 0 < maxD (u.take s.ddTo)

theorem ddStep_inv (u : List ℚ) (k : ℕ) (s : DdState) (v : ℚ)
    (hlo : ∀ j, j < u.length → 1 / 1000000 ≤ u.getD j 0)
    (hhi : ∀ j, j < u.length → u.getD j 0 ≤ 1000000)
    (h1 : 1 ≤ k) (hk : k < u.length) (hv : u.getD k 0 = v)
    (inv : DdInv u k s) :
    DdInv u (k + 1) (ddStep s k v) := by
  have hmaxlo : 1 / 1000000 ≤ s.maxVal := by
    rw [← inv.maxidx_val]
    exact hlo s.maxIdx (lt_trans inv.maxidx_lt hk)
  have hmaxpos : 0 < s.maxVal := lt_of_lt_of_le (by norm_num) hmaxlo
  have hvhi : v ≤ 1000000 := hv ▸ hhi k hk
  have hdlt : v / s.maxVal - 1 < (10 : ℚ) ^ 18 := by
    have hratio : v / s.maxVal ≤ 1000000 * 1000000 := by
      rw [div_le_iff₀ hmaxpos]
      nlinarith
    have : ((1000000 : ℚ) * 1000000) - 1 < (10 : ℚ) ^ 18 := by norm_num
    linarith
  have hdd_k : ddAt u k = v / s.maxVal - 1 := by
    simp only [ddAt]
    rw [hv, ← inv.maxval]
  have htakene : u.take k ≠ [] := take_ne_nil_of_pos u k h1 (le_of_lt hk)
  have hmaxD_succ : maxD (u.take (k + 1)) = max (maxD (u.take k)) v := by
    rw [take_succ_getD u k hk, hv, maxD_append_single _ htakene]
  have htklen : (u.take k).length = k := by
    simp
    omega
  have hmaxD_ge : ∀ j, j < k → u.getD j 0 ≤ maxD (u.take k) := by
    intro j hj
    have := getD_le_maxD (u.take k) j (by rw [htklen]; exact hj)
    rwa [getD_take u k j hj] at this
  by_cases hup : v / s.maxVal - 1 < s.maxDrawdown
  · by_cases hmax : s.maxVal < v
    · have hstep : ddStep s k v = ⟨v, k, v / s.maxVal - 1, s.maxIdx, k⟩ := by
        simp [ddStep, hup, hmax]
      rw [hstep]
      exact {
        maxval := by
          rw [hmaxD_succ, ← inv.maxval, max_eq_right (le_of_lt hmax)]
        maxidx_lt := Nat.lt_succ_self k
        maxidx_val := hv
        maxidx_first := by
          intro j hj
          exact lt_of_le_of_lt (le_trans (hmaxD_ge j hj) (le_of_eq inv.maxval.symm))
            hmax
        sentinel := by intro hcon; omega
        to_pos := fun _ => h1
        to_lt := fun _ => Nat.lt_succ_self k
        dd_eq := fun _ => hdd_k.symm
        dd_lb := by
          intro i h1i hik
          rcases Nat.lt_succ_iff_lt_or_eq.mp hik with h | h
          · exact le_trans (le_of_lt hup) (inv.dd_lb i h1i h)
          · subst h
            rw [hdd_k]
        dd_first := by
          intro i h1i hik
          exact lt_of_lt_of_le hup (inv.dd_lb i h1i hik)
        from_lt := fun _ => inv.maxidx_lt
        from_val := fun _ => by rw [inv.maxidx_val, inv.maxval]
        from_first := fun _ j hj => inv.maxval ▸ inv.maxidx_first j hj }
    · have hstep : ddStep s k v =
          ⟨s.maxVal, s.maxIdx, v / s.maxVal - 1, s.maxIdx, k⟩ := by
        simp [ddStep, hup, hmax]
      rw [hstep]
      exact {
        maxval := by
          rw [hmaxD_succ, max_eq_left (inv.maxval ▸ not_lt.mp hmax)]
          exact inv.maxval
        maxidx_lt := lt_trans inv.maxidx_lt (Nat.lt_succ_self k)
        maxidx_val := inv.maxidx_val
        maxidx_first := inv.maxidx_first
        sentinel := by intro hcon; omega
        to_pos := fun _ => h1
        to_lt := fun _ => Nat.lt_succ_self k
        dd_eq := fun _ => hdd_k.symm
        dd_lb := by
          intro i h1i hik
          rcases Nat.lt_succ_iff_lt_or_eq.mp hik with h | h
          · exact le_trans (le_of_lt hup) (inv.dd_lb i h1i h)
          · subst h
            rw [hdd_k]
        dd_first := by
          intro i h1i hik
          exact lt_of_lt_of_le hup (inv.dd_lb i h1i hik)
        from_lt := fun _ => inv.maxidx_lt
        from_val := fun _ => by rw [inv.maxidx_val, inv.maxval]
        from_first := fun _ j hj => inv.maxval ▸ inv.maxidx_first j hj }
  · have hk2 : 2 ≤ k := by
      by_contra hcon
      have hk1 : k ≤ 1 := by omega
      apply hup
      rw [inv.sentinel hk1]
      exact hdlt
    by_cases hmax : s.maxVal < v
    · have hstep : ddStep s k v =
          ⟨v, k, s.maxDrawdown, s.ddFrom, s.ddTo⟩ := by
        simp [ddStep, hup, hmax]
      rw [hstep]
      exact {
        maxval := by
          rw [hmaxD_succ, ← inv.maxval, max_eq_right (le_of_lt hmax)]
        maxidx_lt := Nat.lt_succ_self k
        maxidx_val := hv
        maxidx_first := by
          intro j hj
          exact lt_of_le_of_lt (le_trans (hmaxD_ge j hj) (le_of_eq inv.maxval.symm))
            hmax
        sentinel := by intro hcon; omega
        to_pos := fun _ => inv.to_pos hk2
        to_lt := fun _ => lt_trans (inv.to_lt hk2) (Nat.lt_succ_self k)
        dd_eq := fun _ => inv.dd_eq hk2
        dd_lb := by
          intro i h1i hik
          rcases Nat.lt_succ_iff_lt_or_eq.mp hik with h | h
          · exact inv.dd_lb i h1i h
          · subst h
            rw [hdd_k]
            exact not_lt.mp hup
        dd_first := inv.dd_first
        from_lt := fun _ => inv.from_lt hk2
        from_val := fun _ => inv.from_val hk2
        from_first := fun _ => inv.from_first hk2 }
    · have hstep : ddStep s k v = s := by
        simp [ddStep, hup, hmax]
      rw [hstep]
      exact {
        maxval := by
          rw [hmaxD_succ, max_eq_left (inv.maxval ▸ not_lt.mp hmax)]
          exact inv.maxval
        maxidx_lt := lt_trans inv.maxidx_lt (Nat.lt_succ_self k)
        maxidx_val := inv.maxidx_val
        maxidx_first := inv.maxidx_first
        sentinel := by intro hcon; omega
        to_pos := fun _ => inv.to_pos hk2
        to_lt := fun _ => lt_trans (inv.to_lt hk2) (Nat.lt_succ_self k)
        dd_eq := fun _ => inv.dd_eq hk2
        dd_lb := by
          intro i h1i hik
          rcases Nat.lt_succ_iff_lt_or_eq.mp hik with h | h
          · exact inv.dd_lb i h1i h
          · subst h
            rw [hdd_k]
            exact not_lt.mp hup
        dd_first := inv.dd_first
        from_lt := fun _ => inv.from_lt hk2
        from_val := fun _ => inv.from_val hk2
        from_first := fun _ => inv.from_first hk2 }

theorem ddLoop_inv (u : List ℚ)
    (hlo : ∀ j, j < u.length → 1 / 1000000 ≤ u.getD j 0)
    (hhi : ∀ j, j < u.length → u.getD j 0 ≤ 1000000) :
    ∀ (rest : List ℚ) (k : ℕ) (s : DdState), u.drop k = rest → 1 ≤ k →
      k ≤ u.length → DdInv u k s →
      DdInv u u.length (ddLoop s k rest) := by
  intro rest
  induction rest with
  | nil =>
    intro k s hdrop h1 hle inv
    have hlen : u.length ≤ k := by
      have := congrArg List.length hdrop
      simp at this
      omega
    have hkeq : k = u.length := le_antisymm hle hlen
    exact hkeq ▸ inv
  | cons v rest ih =>
    intro k s hdrop h1 hle inv
    have hlen : (u.drop k).length = u.length - k := by simp
    have hklt : k < u.length := by
      rw [hdrop] at hlen
      simp at hlen
      omega
    have hv : u.getD k 0 = v := by
      have h0 := getD_zero_drop u k hklt
      rw [hdrop] at h0
      exact h0.symm
    have hdrop' : u.drop (k + 1) = rest := by
      have h1d : List.drop 1 (List.drop k u) = List.drop (k + 1) u :=
        List.drop_drop 1 k u
      rw [hdrop] at h1d
      exact h1d.symm
    show DdInv u u.length (ddLoop (ddStep s k v) (k + 1) rest)
    exact ih (k + 1) (ddStep s k v) hdrop' (by omega) (by omega)
      (ddStep_inv u k s v hlo hhi h1 hklt hv inv)

theorem ddInv_init (v0 : ℚ) (vs : List ℚ) :
    DdInv (v0 :: vs) 1 ⟨v0, 0, (10 : ℚ) ^ 18, 0, 0⟩ := by
  exact {
    maxval := rfl
    maxidx_lt := Nat.lt_succ_self 0
    maxidx_val := rfl
    maxidx_first := by
      intro j hj
      exact absurd hj (by simp)
    sentinel := fun _ => rfl
    to_pos := by intro h; omega
    to_lt := by intro h; omega
    dd_eq := by intro h; omega
    dd_lb := by intro i h1i hik; omega
    dd_first := by
      intro i h1i hik
      exact absurd hik (by simp)
    from_lt := by intro h; omega
    from_val := by intro h; omega
    from_first := by intro h; omega }

/-- What the spec asserts about the max-gain result on unit values `u`:
the span ends at the first index attaining the largest candidate gain
(strict update — ties keep the first occurrence), each candidate is measured
against the running minimum over the indices strictly before it (never the
index itself), and the span starts at the first index attaining that running
minimum, strictly before the end. -/
def ExGainSpec (u : List ℚ) (r : Extremes) : Prop :=
  1 ≤ r.upTo ∧ r.upTo < u.length ∧
  r.upPct = gainAt u r.upTo * 100 ∧
  (∀ i, 1 ≤ i → i < u.length → gainAt u i ≤ gainAt u r.upTo) ∧
  (∀ i, 1 ≤ i → i < r.upTo → gainAt u i < gainAt u r.upTo) ∧
  r.upFrom < r.upTo ∧
  u.getD r.upFrom 0 = minD (u.take r.upTo) ∧
  (∀ j, j < r.upFrom → minD (u.take r.upTo) < u.getD j 0)

/-- The symmetric assertion for the max-drawdown result. -/
def ExDdSpec (u : List ℚ) (r : Extremes) : Prop :=
  1 ≤ r.downTo ∧ r.downTo < u.length ∧
  r.downPct = ddAt u r.downTo * 100 ∧
  (∀ i, 1 ≤ i → i < u.length → ddAt u r.downTo ≤ ddAt u i) ∧
  (∀ i, 1 ≤ i → i < r.downTo → ddAt u r.downTo < ddAt u i) ∧
  r.downFrom < r.downTo ∧
  u.getD r.downFrom 0 = maxD (u.take r.downTo) ∧
  (∀ j, j < r.downFrom → u.getD j 0 < maxD (u.take r.downTo))

/-- **C1.** On any input of at least two rows `calc_extremes` returns a result
whose spans are ordered (`from ≤ to` for both), and — for well-formed unit
values (positive, within sane magnitude bounds, so the `±1e18` sentinels are
beaten on the first iteration) — the result is exactly characterised by
`ExGainSpec`/`ExDdSpec`: strict-improvement updates (first occurrence wins
ties) against the running extremum taken strictly before each index. -/
theorem calc_extremes_spec (rows : List Row) (h2 : 2 ≤ rows.length) :
    ∃ r, calc_extremes rows = some r ∧
      r.upFrom ≤ r.upTo ∧ r.downFrom ≤ r.downTo ∧
      ((∀ x ∈ rows.map (fun row => row.unit), 1 / 1000000 ≤ x ∧ x ≤ 1000000) →
        ExGainSpec (rows.map (fun row => row.unit)) r ∧
        ExDdSpec (rows.map (fun row => row.unit)) r) := by
  obtain ⟨v0, vs, hu⟩ : ∃ v0 vs, rows.map (fun row => row.unit) = v0 :: vs := by
    cases hm : rows.map (fun row => row.unit) with
    | nil =>
      exfalso
      have hl := congrArg List.length hm
      rw [List.length_map] at hl
      simp only [List.length_nil] at hl
      omega
    | cons a l => exact ⟨a, l, rfl⟩
  have hulen : (v0 :: vs).length = rows.length := by
    have hl := congrArg List.length hu
    rw [List.length_map] at hl
    exact hl.symm
  have hcalc : calc_extremes rows = some
      ⟨(gainLoop ⟨v0, 0, -((10 : ℚ) ^ 18), 0, 0⟩ 1 vs).maxGain * 100,
       (gainLoop ⟨v0, 0, -((10 : ℚ) ^ 18), 0, 0⟩ 1 vs).gainFrom,
       (gainLoop ⟨v0, 0, -((10 : ℚ) ^ 18), 0, 0⟩ 1 vs).gainTo,
       (ddLoop ⟨v0, 0, (10 : ℚ) ^ 18, 0, 0⟩ 1 vs).maxDrawdown * 100,
       (ddLoop ⟨v0, 0, (10 : ℚ) ^ 18, 0, 0⟩ 1 vs).ddFrom,
       (ddLoop ⟨v0, 0, (10 : ℚ) ^ 18, 0, 0⟩ 1 vs).ddTo⟩ := by
    rw [calc_extremes, if_neg (by omega), hu]
  have hbounds := calc_extremes_bounds rows _ hcalc
  refine ⟨_, hcalc, hbounds.1, hbounds.2.2.1, ?_⟩
  intro hbound
  rw [hu] at hbound
  rw [hu]
  have hmem : ∀ j, j < (v0 :: vs).length → (v0 :: vs).getD j 0 ∈ (v0 :: vs) := by
    intro j hj
    rw [List.getD_eq_getElem _ _ hj]
    exact List.getElem_mem hj
  have hlo : ∀ j, j < (v0 :: vs).length → 1 / 1000000 ≤ (v0 :: vs).getD j 0 :=
    fun j hj => (hbound _ (hmem j hj)).1
  have hhi : ∀ j, j < (v0 :: vs).length → (v0 :: vs).getD j 0 ≤ 1000000 :=
    fun j hj => (hbound _ (hmem j hj)).2
  have hpos : ∀ j, j < (v0 :: vs).length → 0 < (v0 :: vs).getD j 0 :=
    fun j hj => lt_of_lt_of_le (by norm_num) (hlo j hj)
  have hlen2 : 2 ≤ (v0 :: vs).length := by omega
  have hg := gainLoop_inv (v0 :: vs) hpos vs 1
    ⟨v0, 0, -((10 : ℚ) ^ 18), 0, 0⟩ rfl (by norm_num) (by simp)
    (gainInv_init v0 vs)
  have hd := ddLoop_inv (v0 :: vs) hlo hhi vs 1
    ⟨v0, 0, (10 : ℚ) ^ 18, 0, 0⟩ rfl (by norm_num) (by simp)
    (ddInv_init v0 vs)
  constructor
  · refine ⟨hg.to_pos hlen2, hg.to_lt hlen2, ?_, ?_, ?_,
      hg.from_lt hlen2, hg.from_val hlen2, hg.from_first hlen2⟩
    · show (gainLoop ⟨v0, 0, -((10 : ℚ) ^ 18), 0, 0⟩ 1 vs).maxGain * 100 =
        gainAt (v0 :: vs) (gainLoop ⟨v0, 0, -((10 : ℚ) ^ 18), 0, 0⟩ 1 vs).gainTo * 100
      rw [← hg.gain_eq hlen2]
    · intro i h1i hik
      have := hg.gain_ub i h1i hik
      rwa [hg.gain_eq hlen2] at this
    · intro i h1i hik
      have := hg.gain_first i h1i hik
      rwa [hg.gain_eq hlen2] at this
  · refine ⟨hd.to_pos hlen2, hd.to_lt hlen2, ?_, ?_, ?_,
      hd.from_lt hlen2, hd.from_val hlen2, hd.from_first hlen2⟩
    · show (ddLoop ⟨v0, 0, (10 : ℚ) ^ 18, 0, 0⟩ 1 vs).maxDrawdown * 100 =
        ddAt (v0 :: vs) (ddLoop ⟨v0, 0, (10 : ℚ) ^ 18, 0, 0⟩ 1 vs).ddTo * 100
      rw [← hd.dd_eq hlen2]
    · intro i h1i hik
      have := hd.dd_lb i h1i hik
      rwa [hd.dd_eq hlen2] at this
    · intro i h1i hik
      have := hd.dd_first i h1i hik
      rwa [hd.dd_eq hlen2] at this

/-- Witness for `calc_extremes_spec` at Scenario B's five rows. -/
theorem calc_extremes_spec_witness :
    2 ≤ ([⟨0, ⟨2024, 1, 1⟩, 1, none⟩, ⟨1, ⟨2024, 1, 2⟩, 9 / 10, none⟩,
      ⟨2, ⟨2024, 1, 3⟩, 12 / 10, none⟩, ⟨3, ⟨2024, 1, 4⟩, 8 / 10, none⟩,
      ⟨4, ⟨2024, 1, 5⟩, 15 / 10, none⟩] : List Row).length ∧
    (∃ r, calc_extremes
        [⟨0, ⟨2024, 1, 1⟩, 1, none⟩, ⟨1, ⟨2024, 1, 2⟩, 9 / 10, none⟩,
         ⟨2, ⟨2024, 1, 3⟩, 12 / 10, none⟩, ⟨3, ⟨2024, 1, 4⟩, 8 / 10, none⟩,
         ⟨4, ⟨2024, 1, 5⟩, 15 / 10, none⟩] = some r ∧
      r.upFrom ≤ r.upTo ∧ r.downFrom ≤ r.downTo ∧
      ((∀ x ∈ ([⟨0, ⟨2024, 1, 1⟩, 1, none⟩, ⟨1, ⟨2024, 1, 2⟩, 9 / 10, none⟩,
          ⟨2, ⟨2024, 1, 3⟩, 12 / 10, none⟩, ⟨3, ⟨2024, 1, 4⟩, 8 / 10, none⟩,
          ⟨4, ⟨2024, 1, 5⟩, 15 / 10, none⟩] : List Row).map (fun row => row.unit),
          1 / 1000000 ≤ x ∧ x ≤ 1000000) →
        ExGainSpec (([⟨0, ⟨2024, 1, 1⟩, 1, none⟩, ⟨1, ⟨2024, 1, 2⟩, 9 / 10, none⟩,
          ⟨2, ⟨2024, 1, 3⟩, 12 / 10, none⟩, ⟨3, ⟨2024, 1, 4⟩, 8 / 10, none⟩,
          ⟨4, ⟨2024, 1, 5⟩, 15 / 10, none⟩] : List Row).map (fun row => row.unit)) r ∧
        ExDdSpec (([⟨0, ⟨2024, 1, 1⟩, 1, none⟩, ⟨1, ⟨2024, 1, 2⟩, 9 / 10, none⟩,
          ⟨2, ⟨2024, 1, 3⟩, 12 / 10, none⟩, ⟨3, ⟨2024, 1, 4⟩, 8 / 10, none⟩,
          ⟨4, ⟨2024, 1, 5⟩, 15 / 10, none⟩] : List Row).map (fun row => row.unit)) r)) :=
  ⟨by simp,
    calc_extremes_spec
      [⟨0, ⟨2024, 1, 1⟩, 1, none⟩, ⟨1, ⟨2024, 1, 2⟩, 9 / 10, none⟩,
       ⟨2, ⟨2024, 1, 3⟩, 12 / 10, none⟩, ⟨3, ⟨2024, 1, 4⟩, 8 / 10, none⟩,
       ⟨4, ⟨2024, 1, 5⟩, 15 / 10, none⟩] (by simp)⟩

/-! ## C4: the controller pipeline -/

/-- The conjunction of properties claimed for the recomputation pipeline:
extremes are computed on exactly the zoom slice of the filtered series (with
indices valid inside that slice), while moving averages are computed over the
full filtered series. -/
def PipelineProps (raw : List Row) (st : AppState) (today : Date) : Prop :=
  compute_ex raw st today =
    (if rows_visible (rows_all raw st.range_key today) st.datazoom ≠ [] then
      calc_extremes (rows_visible (rows_all raw st.range_key today) st.datazoom)
    else none) ∧
  (rows_all raw st.range_key today ≠ [] →
    rows_visible (rows_all raw st.range_key today) st.datazoom =
      ((rows_all raw st.range_key today).take
        ((zoomIndices st.datazoom.startPct st.datazoom.endPct
          (rows_all raw st.range_key today).length).2 + 1)).drop
        ((zoomIndices st.datazoom.startPct st.datazoom.endPct
          (rows_all raw st.range_key today).length).1)) ∧
  ma_series_map st.enabled_mas (rows_all raw st.range_key today) =
    st.enabled_mas.map (fun key =>
      (key, moving_average (net_series (rows_all raw st.range_key today))
        (ma_win key))) ∧
  (∀ key arr,
    (key, arr) ∈ ma_series_map st.enabled_mas (rows_all raw st.range_key today) →
    arr.length = (rows_all raw st.range_key today).length) ∧
  (∀ r, compute_ex raw st today = some r →
    r.upFrom ≤ r.upTo ∧ r.downFrom ≤ r.downTo ∧
    r.upTo < (compute_visible raw st today).length ∧
    r.downTo < (compute_visible raw st today).length)

/-- **C4.** The controller runs `calc_extremes` on exactly the zoomed slice of
the filtered series — the slice selected by the datazoom index mapping — and
the returned span indices are relative to (and in bounds for) that slice;
moving averages, by contrast, are computed over the full filtered series, one
aligned series of the same length per enabled window. -/
theorem pipeline_spec (raw : List Row) (st : AppState) (today : Date) :
    PipelineProps raw st today := by
  refine ⟨rfl, ?_, rfl, ?_, ?_⟩
  · intro hne
    have hni : ¬ (rows_all raw st.range_key today).isEmpty = true := by
      rw [List.isEmpty_iff]
      exact hne
    simp only [rows_visible, hni, if_false, Bool.false_eq_true]
  · intro key arr hmem
    unfold ma_series_map at hmem
    rw [List.mem_map] at hmem
    obtain ⟨k2, hk2, heq⟩ := hmem
    obtain ⟨hkey, harr⟩ := Prod.mk.injEq .. ▸ heq
    rw [← harr, moving_average_length]
    simp [net_series]
  · intro r hr
    unfold compute_ex at hr
    by_cases hvis : compute_visible raw st today ≠ []
    · rw [if_pos hvis] at hr
      have hb := calc_extremes_bounds _ r hr
      exact ⟨hb.1, hb.2.2.1, hb.2.1, hb.2.2.2⟩
    · rw [if_neg hvis] at hr
      cases hr

/-- Witness for `pipeline_spec` on a concrete series and state. -/
theorem pipeline_spec_witness :
    PipelineProps
      [⟨0, ⟨2024, 1, 1⟩, 1, none⟩, ⟨1, ⟨2024, 1, 2⟩, 9 / 10, none⟩,
       ⟨2, ⟨2024, 1, 3⟩, 12 / 10, none⟩, ⟨3, ⟨2024, 1, 4⟩, 8 / 10, none⟩,
       ⟨4, ⟨2024, 1, 5⟩, 15 / 10, none⟩]
      ⟨DEFAULT_FUND_MAP, "all", ["ma5"], ⟨30, 70⟩, "110022"⟩ ⟨2024, 6, 1⟩ :=
  pipeline_spec
    [⟨0, ⟨2024, 1, 1⟩, 1, none⟩, ⟨1, ⟨2024, 1, 2⟩, 9 / 10, none⟩,
     ⟨2, ⟨2024, 1, 3⟩, 12 / 10, none⟩, ⟨3, ⟨2024, 1, 4⟩, 8 / 10, none⟩,
     ⟨4, ⟨2024, 1, 5⟩, 15 / 10, none⟩]
    ⟨DEFAULT_FUND_MAP, "all", ["ma5"], ⟨30, 70⟩, "110022"⟩ ⟨2024, 6, 1⟩

end StockScreener
